import Mathlib

/-
  Shallow embedding of the snapshot/diff/job core of
  src/birdfingers_pkgmgr.py, with theorems checking the specification's
  claims against it.
-/

namespace Birdfingers

/-! ## Python string primitives

The source manipulates Python strings with strip, startswith, the `in`
substring test, split with maxsplit, splitlines and lower.  They are
embedded here over `String.data` (lists of characters). -/

/-- Python str.strip: drop leading and trailing whitespace characters. -/
def pyStrip (s : String) : String :=
  ⟨((s.data.dropWhile Char.isWhitespace).reverse.dropWhile Char.isWhitespace).reverse⟩

/-- Python str.startswith. -/
def pyStartsWith (s p : String) : Bool :=
  p.data.isPrefixOf s.data

/-- Auxiliary scan for the first occurrence of a separator: returns the
text before and after the first occurrence, or none when the separator
does not occur. -/
def splitOnceAux (sep : List Char) : List Char → List Char → Option (List Char × List Char)
  | [], _ => none
  | c :: rest, acc =>
    if sep.isPrefixOf (c :: rest) then some (acc.reverse, (c :: rest).drop sep.length)
    else splitOnceAux sep rest (c :: acc)

/-- Python s.split(sep, 1) when sep occurs in s (and simultaneously the
Python substring test: the separator occurs iff the result is some). -/
def pySplitOnce (s sep : String) : Option (String × String) :=
  match splitOnceAux sep.data s.data [] with
  | none => none
  | some (a, b) => some (⟨a⟩, ⟨b⟩)

/-- Auxiliary character scan for Python str.splitlines. -/
def pySplitlinesAux : List Char → List Char → List String
  | [], acc => if acc.isEmpty then [] else [⟨acc.reverse⟩]
  | '\r' :: '\n' :: rest, acc => ⟨acc.reverse⟩ :: pySplitlinesAux rest []
  | '\r' :: rest, acc => ⟨acc.reverse⟩ :: pySplitlinesAux rest []
  | '\n' :: rest, acc => ⟨acc.reverse⟩ :: pySplitlinesAux rest []
  | c :: rest, acc => pySplitlinesAux rest (c :: acc)

/-- Python str.splitlines restricted to the line breaks that occur in
requirement text (newline, carriage return, and their combination). -/
def pySplitlines (s : String) : List String :=
  pySplitlinesAux s.data []

/-- Python str.lower (the names handled here are ASCII package names,
so per-character ASCII lowercasing is the behavior exercised). -/
def pyLower (s : String) : String :=
  ⟨s.data.map Char.toLower⟩

/-! ## PackageSet model (parse_requirements_text)

A parsed package set is the Python dict mapping the normalized
(lowercased) name to the display name and version, kept as an
association list in insertion order, plus the list of unparsed lines. -/

/-- One value of the pkgs dict built by parse_requirements_text. -/
structure PkgEntry where
  name : String
  version : String
deriving DecidableEq, Repr

/-- A Python dict from normalized name to entry, in insertion order. -/
abbrev PackageSet := List (String × PkgEntry)

/-- Python dict assignment d[k] = v: update in place when the key is
present (keeping its position), else append. -/
def dictInsert (m : PackageSet) (k : String) (v : PkgEntry) : PackageSet :=
  if m.any (fun p => p.1 == k) then
    m.map (fun p => if p.1 == k then (k, v) else p)
  else
    m ++ [(k, v)]

/-- Python dict lookup d.get(k): the entry stored at the first matching
key, if any. -/
def psGet : PackageSet → String → Option PkgEntry
  | [], _ => none
  | (k, v) :: rest, key => if k == key then some v else psGet rest key

/-- Processing of one line of requirement text, embedding the loop body
of parse_requirements_text. -/
def parseReqLine (st : PackageSet × List String) (line : String) : PackageSet × List String :=
  let s := pyStrip line
  if s == ("") || pyStartsWith s ("#") then st
  else if (pySplitOnce s (" @ ")).isSome || pyStartsWith s ("-e ") then (st.1, st.2 ++ [s])
  else
    match pySplitOnce s ("==") with
    | some (name, ver) => (dictInsert st.1 (pyLower name) ⟨name, ver⟩, st.2)
    | none => (st.1, st.2 ++ [s])

/-- Embedding of parse_requirements_text: fold the line processor over
the lines of the text, starting from an empty dict and no other lines. -/
def parse_requirements_text (text : String) : PackageSet × List String :=
  (pySplitlines text).foldl parseReqLine ([], [])

/-! ## Diff engine (diff_envs) -/

/-- One element of the installs list of diff_envs.  The Python dict key
named from is rendered here as fromVer. -/
structure InstallItem where
  name : String
  fromVer : Option String
  toVer : String
deriving DecidableEq, Repr

/-- One element of the uninstalls list of diff_envs. -/
structure UninstallItem where
  name : String
  fromVer : String
deriving DecidableEq, Repr

/-- One element of the unchanged list of diff_envs. -/
structure UnchangedItem where
  name : String
  version : String
deriving DecidableEq, Repr

/-- Classification of one target entry on the installs side of the loop
of diff_envs: absent in current, or present with a different version. -/
def classifyInstall (current_pkgs : PackageSet) (p : String × PkgEntry) : Option InstallItem :=
  match psGet current_pkgs p.1 with
  | none => some ⟨p.2.name, none, p.2.version⟩
  | some cur =>
    if cur.version ≠ p.2.version then some ⟨p.2.name, some cur.version, p.2.version⟩
    else none

/-- Classification of one target entry on the unchanged side of the loop
of diff_envs: present in current with the same version. -/
def classifyUnchanged (current_pkgs : PackageSet) (p : String × PkgEntry) : Option UnchangedItem :=
  match psGet current_pkgs p.1 with
  | none => none
  | some cur =>
    if cur.version ≠ p.2.version then none
    else some ⟨p.2.name, p.2.version⟩

/-- Classification of one current entry on the uninstalls side of the
second loop of diff_envs: absent in target. -/
def classifyUninstall (target_pkgs : PackageSet) (p : String × PkgEntry) : Option UninstallItem :=
  if (psGet target_pkgs p.1).isNone then some ⟨p.2.name, p.2.version⟩ else none

/-- Embedding of diff_envs.  The Python loops append to three separate
lists in iteration order, which equals filtering each pass. -/
def diff_envs (current_pkgs target_pkgs : PackageSet) :
    List InstallItem × List UninstallItem × List UnchangedItem :=
  (target_pkgs.filterMap (classifyInstall current_pkgs),
   current_pkgs.filterMap (classifyUninstall target_pkgs),
   target_pkgs.filterMap (classifyUnchanged current_pkgs))

/-- Normalized-name key of a display name: its lowercase form. -/
def normKey (s : String) : String :=
  pyLower s

/-- The keys of a package set, in order. -/
def psKeys (ps : PackageSet) : List String :=
  ps.map Prod.fst

/-- A package set is well formed when its keys are pairwise distinct and
each key is the lowercase of its entry's display name, the invariant the
specification states for PackageSet and which parse establishes. -/
def WellFormed (ps : PackageSet) : Prop :=
  (psKeys ps).Nodup ∧ ∀ p ∈ ps, p.1 = normKey p.2.name

/-! ## Lemmas about the dict model -/

lemma psGet_mem (ps : PackageSet) (k : String) (e : PkgEntry)
    (h : psGet ps k = some e) : (k, e) ∈ ps := by
  induction ps with
  | nil => simp [psGet] at h
  | cons q rest ih =>
    rw [psGet] at h
    by_cases hk : q.1 == k
    · rw [if_pos hk] at h
      cases h
      have hq : (k, q.2) = q := by
        cases q
        simp_all
      rw [hq]
      exact List.mem_cons_self _ _
    · rw [if_neg hk] at h
      exact List.mem_cons_of_mem _ (ih h)

lemma mem_psGet (ps : PackageSet) (hnd : (psKeys ps).Nodup) (k : String) (e : PkgEntry)
    (h : (k, e) ∈ ps) : psGet ps k = some e := by
  induction ps with
  | nil => simp at h
  | cons q rest ih =>
    rw [psKeys, List.map_cons, List.nodup_cons] at hnd
    rcases List.mem_cons.1 h with h1 | h1
    · rw [psGet, ← h1]
      simp
    · rw [psGet]
      have hne : ¬ (q.1 == k) := by
        intro hq
        have hq' : q.1 = k := by simpa using hq
        exact hnd.1 (hq' ▸ (List.mem_map.2 ⟨(k, e), h1, rfl⟩))
      rw [if_neg hne]
      exact ih hnd.2 h1

lemma psGet_isSome_iff (ps : PackageSet) (k : String) :
    (psGet ps k).isSome = true ↔ k ∈ psKeys ps := by
  induction ps with
  | nil => simp [psGet, psKeys]
  | cons q rest ih =>
    rw [psGet, psKeys, List.map_cons]
    by_cases hk : q.1 == k
    · have hq : q.1 = k := by simpa using hk
      simp [hk, hq]
    · have hq : ¬ q.1 = k := by simpa using hk
      simp only [if_neg hk, List.mem_cons, ih, psKeys]
      constructor
      · intro h; right; exact h
      · rintro (h | h)
        · exact absurd h.symm hq
        · exact h

lemma psGet_eq_none_iff (ps : PackageSet) (k : String) :
    psGet ps k = none ↔ k ∉ psKeys ps := by
  rw [← psGet_isSome_iff]
  cases psGet ps k <;> simp

/-! ## Parse invariant (claim C6) -/

lemma dictInsert_length_le (m : PackageSet) (k : String) (v : PkgEntry) :
    (dictInsert m k v).length ≤ m.length + 1 := by
  rw [dictInsert]
  split
  · rw [List.length_map]; omega
  · rw [List.length_append]; simp

lemma dictInsert_key_inv (m : PackageSet) (v : PkgEntry)
    (h : ∀ p ∈ m, p.1 = normKey p.2.name) :
    ∀ p ∈ dictInsert m (normKey v.name) v, p.1 = normKey p.2.name := by
  intro p hp
  rw [dictInsert] at hp
  split at hp
  · obtain ⟨q, hq, hpq⟩ := List.mem_map.1 hp
    by_cases hc : q.1 == normKey v.name
    · rw [if_pos hc] at hpq
      rw [← hpq]
    · rw [if_neg hc] at hpq
      exact hpq ▸ h q hq
  · rcases List.mem_append.1 hp with h1 | h1
    · exact h p h1
    · simp only [List.mem_singleton] at h1
      rw [h1]

lemma parseReqLine_key_inv (st : PackageSet × List String) (line : String)
    (h : ∀ p ∈ st.1, p.1 = normKey p.2.name) :
    ∀ p ∈ (parseReqLine st line).1, p.1 = normKey p.2.name := by
  rw [parseReqLine]
  split
  · exact h
  · split
    · exact h
    · split
      · rename_i name ver heq
        exact dictInsert_key_inv st.1 ⟨name, ver⟩ h
      · exact h

lemma parse_fold_key_inv (lines : List String) (st : PackageSet × List String)
    (h : ∀ p ∈ st.1, p.1 = normKey p.2.name) :
    ∀ p ∈ (lines.foldl parseReqLine st).1, p.1 = normKey p.2.name := by
  induction lines generalizing st with
  | nil => exact h
  | cons ℓ rest ih => exact ih _ (parseReqLine_key_inv st ℓ h)

/-- C6 counterexample: the claim that every parsed entry has a non-empty
version fails on the line consisting of a name directly followed by the
pin separator: parse_requirements_text stores an entry whose version is
the empty string. -/
theorem parse_entry_invariant_cex :
    ¬ (∀ text : String, ∀ p ∈ (parse_requirements_text text).1,
        p.1 = normKey p.2.name ∧ p.2.version ≠ ("")) := by
  intro h
  have := h ("a==") ("a", ⟨"a", ""⟩) (by decide)
  exact this.2 rfl

/-- C6 (amended): for every input text, every entry produced by
parse_requirements_text has a lookup key equal to the lowercase form of
its display name; the version is the text after the first pin separator
and may be the empty string. -/
theorem parse_entry_key_is_lower_name (text : String) :
    ∀ p ∈ (parse_requirements_text text).1, p.1 = normKey p.2.name :=
  parse_fold_key_inv (pySplitlines text) ([], []) (by simp)

/-- Witness for the amended C6 theorem on a concrete text. -/
theorem parse_entry_key_is_lower_name_witness :
    ("a", PkgEntry.mk "A" "1.0") ∈ (parse_requirements_text "A==1.0").1 ∧
    ("a", PkgEntry.mk "A" "1.0").1 = normKey (PkgEntry.mk "A" "1.0").name :=
  ⟨by decide, parse_entry_key_is_lower_name "A==1.0" ("a", PkgEntry.mk "A" "1.0") (by decide)⟩

/-! ## Diff partition (claims C1 and C8) -/

/-- Normalized keys of the installs list. -/
def installKeys (l : List InstallItem) : List String :=
  l.map (fun it => normKey it.name)

/-- Normalized keys of the uninstalls list. -/
def uninstallKeys (l : List UninstallItem) : List String :=
  l.map (fun it => normKey it.name)

/-- Normalized keys of the unchanged list. -/
def unchangedKeys (l : List UnchangedItem) : List String :=
  l.map (fun it => normKey it.name)

lemma diff_envs_installs (S T : PackageSet) :
    (diff_envs S T).1 = T.filterMap (classifyInstall S) := rfl

lemma diff_envs_uninstalls (S T : PackageSet) :
    (diff_envs S T).2.1 = S.filterMap (classifyUninstall T) := rfl

lemma diff_envs_unchanged (S T : PackageSet) :
    (diff_envs S T).2.2 = T.filterMap (classifyUnchanged S) := rfl

lemma mem_keys_filterMap {β : Type} (f : String × PkgEntry → Option β) (nameOf : β → String)
    (ps : PackageSet) (hnd : (psKeys ps).Nodup) (hkey : ∀ p ∈ ps, p.1 = normKey p.2.name)
    (hname : ∀ p it, f p = some it → nameOf it = p.2.name) (k : String) :
    k ∈ (ps.filterMap f).map (fun it => normKey (nameOf it)) ↔
      ∃ e, psGet ps k = some e ∧ (f (k, e)).isSome = true := by
  constructor
  · intro hk
    obtain ⟨it, hit, hkeq⟩ := List.mem_map.1 hk
    obtain ⟨p, hpT, hcl⟩ := List.mem_filterMap.1 hit
    have hk1 : p.1 = k := by
      rw [hkey p hpT, ← hname p it hcl]; exact hkeq
    refine ⟨p.2, ?_, ?_⟩
    · rw [← hk1]
      exact mem_psGet ps hnd p.1 p.2 (by simpa using hpT)
    · have hp : (k, p.2) = p := by rw [← hk1]
      rw [hp, hcl]
      rfl
  · rintro ⟨e, hget, hsome⟩
    obtain ⟨it, hit⟩ := Option.isSome_iff_exists.1 hsome
    refine List.mem_map.2 ⟨it, List.mem_filterMap.2 ⟨(k, e), psGet_mem ps k e hget, hit⟩, ?_⟩
    rw [hname (k, e) it hit]
    exact (hkey (k, e) (psGet_mem ps k e hget)).symm

lemma classifyInstall_isSome (S : PackageSet) (p : String × PkgEntry) :
    (classifyInstall S p).isSome = true ↔
      (psGet S p.1 = none ∨ ∃ c, psGet S p.1 = some c ∧ c.version ≠ p.2.version) := by
  rw [classifyInstall]
  rcases h : psGet S p.1 with _ | c
  · simp
  · split <;> simp_all

lemma classifyUnchanged_isSome (S : PackageSet) (p : String × PkgEntry) :
    (classifyUnchanged S p).isSome = true ↔
      ∃ c, psGet S p.1 = some c ∧ c.version = p.2.version := by
  rw [classifyUnchanged]
  rcases h : psGet S p.1 with _ | c
  · simp
  · split <;> simp_all

lemma classifyUninstall_isSome (T : PackageSet) (p : String × PkgEntry) :
    (classifyUninstall T p).isSome = true ↔ psGet T p.1 = none := by
  rw [classifyUninstall]
  split <;> simp_all

lemma classifyInstall_name (S : PackageSet) (p : String × PkgEntry) (it : InstallItem)
    (h : classifyInstall S p = some it) : it.name = p.2.name := by
  rw [classifyInstall] at h
  rcases hs : psGet S p.1 with _ | c <;> simp only [hs] at h
  · cases h; rfl
  · by_cases hv : c.version ≠ p.2.version
    · simp only [if_pos hv] at h; cases h; rfl
    · simp only [if_neg hv] at h; cases h

lemma classifyUninstall_name (T : PackageSet) (p : String × PkgEntry) (it : UninstallItem)
    (h : classifyUninstall T p = some it) : it.name = p.2.name := by
  rw [classifyUninstall] at h
  by_cases hv : (psGet T p.1).isNone = true
  · rw [if_pos hv] at h; cases h; rfl
  · rw [if_neg hv] at h; cases h

lemma classifyUnchanged_name (S : PackageSet) (p : String × PkgEntry) (it : UnchangedItem)
    (h : classifyUnchanged S p = some it) : it.name = p.2.name := by
  rw [classifyUnchanged] at h
  rcases hs : psGet S p.1 with _ | c <;> simp only [hs] at h
  · cases h
  · by_cases hv : c.version ≠ p.2.version
    · simp only [if_pos hv] at h; cases h
    · simp only [if_neg hv] at h; cases h; rfl

lemma mem_installKeys_iff (S T : PackageSet) (hT : WellFormed T) (k : String) :
    k ∈ installKeys (diff_envs S T).1 ↔
      ∃ e, psGet T k = some e ∧
        (psGet S k = none ∨ ∃ c, psGet S k = some c ∧ c.version ≠ e.version) := by
  rw [installKeys, diff_envs_installs,
    mem_keys_filterMap (classifyInstall S) (fun it => it.name) T hT.1 hT.2
      (classifyInstall_name S) k]
  exact exists_congr fun e => and_congr_right fun _ => classifyInstall_isSome S (k, e)

lemma mem_uninstallKeys_iff (S T : PackageSet) (hS : WellFormed S) (k : String) :
    k ∈ uninstallKeys (diff_envs S T).2.1 ↔
      ∃ e, psGet S k = some e ∧ psGet T k = none := by
  rw [uninstallKeys, diff_envs_uninstalls,
    mem_keys_filterMap (classifyUninstall T) (fun it => it.name) S hS.1 hS.2
      (classifyUninstall_name T) k]
  exact exists_congr fun e => and_congr_right fun _ => classifyUninstall_isSome T (k, e)

lemma mem_unchangedKeys_iff (S T : PackageSet) (hT : WellFormed T) (k : String) :
    k ∈ unchangedKeys (diff_envs S T).2.2 ↔
      ∃ e, psGet T k = some e ∧ ∃ c, psGet S k = some c ∧ c.version = e.version := by
  rw [unchangedKeys, diff_envs_unchanged,
    mem_keys_filterMap (classifyUnchanged S) (fun it => it.name) T hT.1 hT.2
      (classifyUnchanged_name S) k]
  exact exists_congr fun e => and_congr_right fun _ => classifyUnchanged_isSome S (k, e)

/-- C1: over well-formed package sets, diff_envs partitions the union of
the normalized key sets of source and target into installs, uninstalls
and unchanged with no overlap, classifying a shared key with equal
versions as unchanged, a key in target only or shared with differing
versions as an install, and a key in source only as an uninstall. -/
theorem diff_envs_partition (S T : PackageSet) (hS : WellFormed S) (hT : WellFormed T)
    (k : String) :
    ((k ∈ installKeys (diff_envs S T).1 ∨ k ∈ uninstallKeys (diff_envs S T).2.1 ∨
        k ∈ unchangedKeys (diff_envs S T).2.2) ↔ (k ∈ psKeys S ∨ k ∈ psKeys T)) ∧
    ¬ (k ∈ installKeys (diff_envs S T).1 ∧ k ∈ uninstallKeys (diff_envs S T).2.1) ∧
    ¬ (k ∈ installKeys (diff_envs S T).1 ∧ k ∈ unchangedKeys (diff_envs S T).2.2) ∧
    ¬ (k ∈ uninstallKeys (diff_envs S T).2.1 ∧ k ∈ unchangedKeys (diff_envs S T).2.2) ∧
    (∀ c e, psGet S k = some c → psGet T k = some e → c.version = e.version →
      k ∈ unchangedKeys (diff_envs S T).2.2) ∧
    (∀ e, psGet T k = some e →
      (psGet S k = none ∨ ∃ c, psGet S k = some c ∧ c.version ≠ e.version) →
      k ∈ installKeys (diff_envs S T).1) ∧
    (∀ c, psGet S k = some c → psGet T k = none →
      k ∈ uninstallKeys (diff_envs S T).2.1) := by
  have hi := mem_installKeys_iff S T hT k
  have hu := mem_uninstallKeys_iff S T hS k
  have hc := mem_unchangedKeys_iff S T hT k
  simp only [hi, hu, hc, ← psGet_isSome_iff]
  rcases hs : psGet S k with _ | c <;> rcases ht : psGet T k with _ | e
  · simp
  · simp
  · simp
  · by_cases hv : c.version = e.version
    · simp [hv]
    · simp [hv]

/-- Witness for the C1 theorem on concrete package sets. -/
theorem diff_envs_partition_witness :
    WellFormed [("a", PkgEntry.mk "a" "1.0")] ∧ WellFormed [("b", PkgEntry.mk "b" "2.0")] ∧
    (("a" ∈ installKeys (diff_envs [("a", PkgEntry.mk "a" "1.0")] [("b", PkgEntry.mk "b" "2.0")]).1 ∨
        "a" ∈ uninstallKeys (diff_envs [("a", PkgEntry.mk "a" "1.0")] [("b", PkgEntry.mk "b" "2.0")]).2.1 ∨
        "a" ∈ unchangedKeys (diff_envs [("a", PkgEntry.mk "a" "1.0")] [("b", PkgEntry.mk "b" "2.0")]).2.2) ↔
      ("a" ∈ psKeys [("a", PkgEntry.mk "a" "1.0")] ∨ "a" ∈ psKeys [("b", PkgEntry.mk "b" "2.0")])) :=
  ⟨⟨by decide, by decide⟩, ⟨by decide, by decide⟩,
    (diff_envs_partition [("a", PkgEntry.mk "a" "1.0")] [("b", PkgEntry.mk "b" "2.0")]
      ⟨by decide, by decide⟩ ⟨by decide, by decide⟩ "a").1⟩

lemma filterMap_congr_map {α β : Type} (f : α → Option β) (g : α → β) (l : List α)
    (h : ∀ a ∈ l, f a = some (g a)) : l.filterMap f = l.map g := by
  induction l with
  | nil => rfl
  | cons a rest ih =>
    rw [List.filterMap_cons, h a (List.mem_cons_self a rest), List.map_cons,
      ih (fun x hx => h x (List.mem_cons_of_mem a hx))]

/-- C8: diffing a well-formed package set against itself yields no
installs, no uninstalls, and an unchanged list whose normalized keys are
exactly the keys of the set, in order. -/
theorem diff_envs_self (S : PackageSet) (h : WellFormed S) :
    (diff_envs S S).1 = [] ∧ (diff_envs S S).2.1 = [] ∧
      unchangedKeys (diff_envs S S).2.2 = psKeys S := by
  obtain ⟨hnd, hkey⟩ := h
  refine ⟨?_, ?_, ?_⟩
  · rw [diff_envs_installs, List.filterMap_eq_nil_iff]
    intro p hp
    rw [classifyInstall, mem_psGet S hnd p.1 p.2 (by simpa using hp)]
    simp
  · rw [diff_envs_uninstalls, List.filterMap_eq_nil_iff]
    intro p hp
    rw [classifyUninstall, mem_psGet S hnd p.1 p.2 (by simpa using hp)]
    simp
  · rw [diff_envs_unchanged,
      filterMap_congr_map (classifyUnchanged S) (fun p => UnchangedItem.mk p.2.name p.2.version) S ?_]
    · rw [unchangedKeys, List.map_map, psKeys]
      refine List.map_congr_left fun p hp => ?_
      exact (hkey p hp).symm
    · intro p hp
      rw [classifyUnchanged, mem_psGet S hnd p.1 p.2 (by simpa using hp)]
      simp

/-- Witness for the C8 theorem on a concrete package set. -/
theorem diff_envs_self_witness :
    WellFormed [("a", PkgEntry.mk "a" "1.0")] ∧
    ((diff_envs [("a", PkgEntry.mk "a" "1.0")] [("a", PkgEntry.mk "a" "1.0")]).1 = [] ∧
      (diff_envs [("a", PkgEntry.mk "a" "1.0")] [("a", PkgEntry.mk "a" "1.0")]).2.1 = [] ∧
      unchangedKeys (diff_envs [("a", PkgEntry.mk "a" "1.0")] [("a", PkgEntry.mk "a" "1.0")]).2.2 =
        psKeys [("a", PkgEntry.mk "a" "1.0")]) :=
  ⟨⟨by decide, by decide⟩, diff_envs_self [("a", PkgEntry.mk "a" "1.0")] ⟨by decide, by decide⟩⟩

/-! ## Snapshot pin count (claim C2)

save_snapshot computes count over the raw freeze text as the number of
non-empty lines that do not start with the comment character, without
stripping and without distinguishing pins from other lines. -/

/-- Embedding of the count computed by save_snapshot from the freeze
text. -/
def snapshot_count (req_text : String) : Nat :=
  ((pySplitlines req_text).filter (fun l => !(l == ("")) && !(pyStartsWith l ("#")))).length

lemma dropWhile_append_singleton (c : Char) (l : List Char)
    (hc : Char.isWhitespace c = false) :
    ∃ m, (l ++ [c]).dropWhile Char.isWhitespace = m ++ [c] := by
  induction l with
  | nil => exact ⟨[], by simp [List.dropWhile_cons, hc]⟩
  | cons a rest ih =>
    by_cases ha : Char.isWhitespace a = true
    · obtain ⟨m, hm⟩ := ih
      exact ⟨m, by simp [List.dropWhile_cons, ha, hm]⟩
    · exact ⟨a :: rest, by simp [List.dropWhile_cons, ha]⟩

lemma pyStartsWith_hash_iff (s : String) :
    pyStartsWith s ("#") = true ↔ ∃ t, s.data = '#' :: t := by
  have hd : ("#" : String).data = ['#'] := by decide
  rw [pyStartsWith, hd]
  cases hs : s.data with
  | nil => simp [List.isPrefixOf]
  | cons b bs =>
    simp only [List.isPrefixOf, Bool.and_true, List.cons.injEq]
    constructor
    · intro h
      exact ⟨bs, by simpa using (beq_iff_eq.1 (by simpa using h)).symm, rfl⟩
    · rintro ⟨t, hb, ht⟩
      simp [hb]

lemma pyStrip_startsWith_hash (s : String) (h : pyStartsWith s ("#") = true) :
    pyStartsWith (pyStrip s) ("#") = true := by
  obtain ⟨t, ht⟩ := (pyStartsWith_hash_iff s).1 h
  rw [pyStartsWith_hash_iff]
  have hhash : Char.isWhitespace '#' = false := by decide
  have h1 : s.data.dropWhile Char.isWhitespace = '#' :: t := by
    rw [ht, List.dropWhile_cons, hhash]
    simp
  obtain ⟨m, hm⟩ := dropWhile_append_singleton '#' t.reverse hhash
  refine ⟨m.reverse, ?_⟩
  show (((s.data.dropWhile Char.isWhitespace).reverse.dropWhile Char.isWhitespace).reverse) = _
  rw [h1]
  have hrev : ('#' :: t).reverse = t.reverse ++ ['#'] := by simp
  rw [hrev, hm]
  simp

lemma parseReqLine_length_le (st : PackageSet × List String) (line : String) :
    (parseReqLine st line).1.length ≤ st.1.length + 1 := by
  rw [parseReqLine]
  split
  · omega
  · split
    · simp
    · split
      · exact dictInsert_length_le st.1 _ _
      · simp

lemma parseReqLine_pkgs_of_skipped (st : PackageSet × List String) (line : String)
    (h : (!(line == ("")) && !(pyStartsWith line ("#"))) = false) :
    (parseReqLine st line).1 = st.1 := by
  rw [parseReqLine]
  have hbr : (pyStrip line == ("") || pyStartsWith (pyStrip line) ("#")) = true := by
    rcases Bool.and_eq_false_iff.1 h with h1 | h1
    · have : line = "" := by
        cases hb : (line == ("")) <;> simp [hb] at h1 ⊢
        exact beq_iff_eq.1 hb
      rw [this]
      decide
    · have : pyStartsWith line ("#") = true := by
        cases hb : pyStartsWith line ("#") <;> simp [hb] at h1 ⊢
      rw [Bool.or_eq_true]
      right
      exact pyStrip_startsWith_hash line this
  rw [if_pos hbr]

lemma parse_fold_length_le (lines : List String) (st : PackageSet × List String) :
    ((lines.foldl parseReqLine st).1).length ≤
      st.1.length + (lines.filter (fun l => !(l == ("")) && !(pyStartsWith l ("#")))).length := by
  induction lines generalizing st with
  | nil => simp
  | cons ℓ rest ih =>
    rw [List.foldl_cons, List.filter_cons]
    by_cases hc : (!(ℓ == ("")) && !(pyStartsWith ℓ ("#"))) = true
    · rw [if_pos hc]
      have h1 := ih (parseReqLine st ℓ)
      have h2 := parseReqLine_length_le st ℓ
      simp only [List.length_cons]
      omega
    · rw [if_neg hc]
      have h1 := ih (parseReqLine st ℓ)
      rw [parseReqLine_pkgs_of_skipped st ℓ (by simpa using hc)] at h1
      exact h1

/-- C2 counterexample: the persisted count is not the number of pinned
entries; a freeze text consisting of a single editable line has one
counted line but zero pins. -/
theorem snapshot_count_cex :
    ¬ (∀ req_text : String,
        snapshot_count req_text = ((parse_requirements_text req_text).1).length) := by
  intro h
  have h1 : snapshot_count ("-e proj") = 1 := by decide
  have h2 : ((parse_requirements_text ("-e proj")).1).length = 0 := by decide
  rw [h ("-e proj"), h2] at h1
  cases h1

/-- C2 (amended): the persisted count equals the number of non-empty,
non-comment lines of the captured freeze text, which is an upper bound
on, and in general can exceed, the number of pinned entries of the
captured PackageSet. -/
theorem snapshot_count_ge_pins (req_text : String) :
    ((parse_requirements_text req_text).1).length ≤ snapshot_count req_text := by
  have := parse_fold_length_le (pySplitlines req_text) ([], [])
  simpa [parse_requirements_text, snapshot_count] using this

/-! ## Snapshot store model (claims C3, C4, C10)

The store is the snapshot directory: a mapping from file name to file
content.  A .json file holds either metadata that json.load parses or
unreadable bytes; a .txt file holds the frozen requirement text.
Filesystem effects (existence checks, reads, writes, removals) become
operations on this mapping; a removal that raises is modelled by an
oracle saying which paths fail to be removed. -/

/-- Python str.endswith. -/
def pyEndsWith (s suf : String) : Bool :=
  suf.data.reverse.isPrefixOf s.data.reverse

/-- The metadata record persisted by save_snapshot.  The fields python,
mode, requirements, dir and path of the source are environment-derived
constants and play no role in the claims, so they are omitted. -/
structure SnapMeta where
  id : String
  name : String
  comment : String
  created_utc : String
  count : Nat
deriving DecidableEq, Repr

/-- Content of one file in the snapshot directory. -/
inductive FileContent where
  | json (m : SnapMeta) : FileContent
  | badJson : FileContent
  | text (s : String) : FileContent
deriving DecidableEq, Repr

/-- The snapshot directory: file names with their contents. -/
structure SnapDir where
  files : List (String × FileContent)
deriving DecidableEq, Repr

/-- os.path.exists within the snapshot directory. -/
def fileExists (d : SnapDir) (p : String) : Bool :=
  d.files.any (fun q => q.1 == p)

/-- Reading one file of the snapshot directory. -/
def readFile (d : SnapDir) (p : String) : Option FileContent :=
  match d.files.find? (fun q => q.1 == p) with
  | none => none
  | some q => some q.2

/-- Writing one file: overwrite in place when present, else create. -/
def writeFile (d : SnapDir) (p : String) (c : FileContent) : SnapDir :=
  if fileExists d p then ⟨d.files.map (fun q => if q.1 == p then (p, c) else q)⟩
  else ⟨d.files ++ [(p, c)]⟩

/-- os.remove within the snapshot directory. -/
def removeFile (d : SnapDir) (p : String) : SnapDir :=
  ⟨d.files.filter (fun q => !(q.1 == p))⟩

/-- Embedding of get_snapshot: absent unless both records exist; a
metadata record json.load cannot parse raises, modelled as error. -/
def get_snapshot (d : SnapDir) (id_ : String) : Except String (Option (SnapMeta × String)) :=
  let meta_path := id_ ++ ".json"
  let req_path := id_ ++ ".txt"
  if fileExists d meta_path && fileExists d req_path then
    match readFile d meta_path with
    | some (FileContent.json m) => Except.ok (some (m, req_path))
    | _ => Except.error meta_path
  else Except.ok none

/-- Stable insertion of one element into an already sorted list,
placing it before the first element it may precede. -/
def sortInsert {α : Type} (le : α → α → Bool) (a : α) : List α → List α
  | [] => [a]
  | b :: rest => if le a b then a :: b :: rest else b :: sortInsert le a rest

/-- Stable insertion sort, the extensional behavior of Python's stable
sorts under a boolean precedes-or-ties relation. -/
def stableSort {α : Type} (le : α → α → Bool) : List α → List α
  | [] => []
  | a :: rest => sortInsert le a (stableSort le rest)

/-- Embedding of list_snapshots: collect every .json file whose content
parses (skipping unreadable ones), sorted by created_utc descending as
Python list.sort with reverse=True does (an earlier record precedes a
later one when its key is greater or tied). -/
def list_snapshots (d : SnapDir) : List SnapMeta :=
  stableSort (fun a b => decide (b.created_utc ≤ a.created_utc))
    (d.files.filterMap (fun q =>
      if pyEndsWith q.1 (".json") then
        match q.2 with
        | FileContent.json m => some m
        | _ => none
      else none))

/-- One iteration of the removal loop of delete_snapshot: skip a missing
file; on a removal error (oracle rf) clear the success flag and keep
going. -/
def tryRemove (rf : String → Bool) (st : Bool × SnapDir) (p : String) : Bool × SnapDir :=
  if fileExists st.2 p then
    if rf p then (false, st.2)
    else (st.1, removeFile st.2 p)
  else st

/-- Embedding of delete_snapshot: attempt to remove the metadata record
then the payload record, reporting whether no removal raised. -/
def delete_snapshot (rf : String → Bool) (d : SnapDir) (id_ : String) : Bool × SnapDir :=
  tryRemove rf (tryRemove rf (true, d) (id_ ++ ".json")) (id_ ++ ".txt")

/-- Characters the sanitizer of _safe_name keeps. -/
def allowedChar (c : Char) : Bool :=
  ('A' ≤ c && c ≤ 'Z') || ('a' ≤ c && c ≤ 'z') || ('0' ≤ c && c ≤ '9') ||
    c == '_' || c == '.' || c == '-'

/-- Replacement of each maximal run of disallowed characters by one
underscore, embedding the re.sub of _safe_name. -/
def sanitizeAux : List Char → Bool → List Char
  | [], _ => []
  | c :: rest, inRun =>
    if allowedChar c then c :: sanitizeAux rest false
    else if inRun then sanitizeAux rest true
    else '_' :: sanitizeAux rest true

/-- Embedding of _safe_name: strip, default to snapshot when empty,
sanitize, truncate to 60 characters. -/
def _safe_name (s : String) : String :=
  let s1 := pyStrip s
  let s2 := if s1 == ("") then "snapshot" else s1
  ⟨(sanitizeAux s2.data false).take 60⟩

/-- Embedding of save_snapshot over the store model.  The freeze text
and the second-resolution UTC timestamp are the two environment inputs
and are passed as arguments; the snapshot id is the sanitized name
joined with the timestamp, and the two records are written under it. -/
def save_snapshot (d : SnapDir) (name comment ts req_text : String) : SnapMeta × SnapDir :=
  let base := (if _safe_name name == ("") then "snapshot" else _safe_name name) ++ "_" ++ ts
  let req_path := base ++ ".txt"
  let meta_path := base ++ ".json"
  let meta : SnapMeta := ⟨base, name, comment, ts, snapshot_count req_text⟩
  (meta, writeFile (writeFile d req_path (FileContent.text req_text)) meta_path (FileContent.json meta))

/-! ## Store lemmas -/

lemma isPrefixOf_append_self (l t : List Char) : l.isPrefixOf (l ++ t) = true := by
  induction l with
  | nil => simp [List.isPrefixOf]
  | cons a rest ih => simp [List.isPrefixOf, ih]

lemma pyEndsWith_append (s suf : String) : pyEndsWith (s ++ suf) suf = true := by
  rw [pyEndsWith, String.data_append, List.reverse_append]
  exact isPrefixOf_append_self suf.data.reverse s.data.reverse

lemma sortInsert_perm {α : Type} (le : α → α → Bool) (a : α) (l : List α) :
    (sortInsert le a l).Perm (a :: l) := by
  induction l with
  | nil => exact List.Perm.refl _
  | cons b rest ih =>
    rw [sortInsert]
    split
    · exact List.Perm.refl _
    · exact (ih.cons b).trans (List.Perm.swap a b rest)

lemma stableSort_perm {α : Type} (le : α → α → Bool) (l : List α) :
    (stableSort le l).Perm l := by
  induction l with
  | nil => exact List.Perm.refl _
  | cons a rest ih =>
    rw [stableSort]
    exact (sortInsert_perm le a (stableSort le rest)).trans (ih.cons a)

lemma find?_map_update (l : List (String × FileContent)) (p : String) (c : FileContent)
    (h : l.any (fun q => q.1 == p) = true) :
    (l.map (fun q => if q.1 == p then (p, c) else q)).find? (fun q => q.1 == p) = some (p, c) := by
  induction l with
  | nil => simp at h
  | cons q rest ih =>
    rw [List.map_cons]
    by_cases hq : (q.1 == p) = true
    · rw [if_pos hq]
      exact List.find?_cons_of_pos _ (by simp)
    · rw [if_neg hq, List.find?_cons_of_neg _ (by simpa using hq)]
      rw [List.any_cons] at h
      rcases Bool.or_eq_true_iff.1 h with h1 | h1
      · exact absurd h1 hq
      · exact ih h1

lemma readFile_writeFile_same (d : SnapDir) (p : String) (c : FileContent) :
    readFile (writeFile d p c) p = some c := by
  rw [writeFile]
  by_cases h : fileExists d p = true
  · rw [if_pos h, readFile]
    rw [find?_map_update d.files p c h]
  · rw [if_neg h, readFile]
    have hnone : d.files.find? (fun q => q.1 == p) = none := by
      rw [List.find?_eq_none]
      intro x hx hpx
      exact h (List.any_eq_true.2 ⟨x, hx, hpx⟩)
    rw [List.find?_append, hnone, Option.none_or,
      List.find?_cons_of_pos _ (by simp)]

lemma readFile_writeFile_other (d : SnapDir) (p q : String) (c : FileContent)
    (h : ¬ q = p) : readFile (writeFile d p c) q = readFile d q := by
  rw [writeFile]
  by_cases hex : fileExists d p = true
  · rw [if_pos hex, readFile, readFile]
    have : (d.files.map (fun r => if r.1 == p then (p, c) else r)).find? (fun r => r.1 == q) =
        d.files.find? (fun r => r.1 == q) := by
      induction d.files with
      | nil => rfl
      | cons r rest ih =>
        rw [List.map_cons]
        by_cases hr : (r.1 == p) = true
        · rw [if_pos hr]
          have hpq : (((p, c) : String × FileContent).1 == q) = false := by
            simp only [beq_eq_false_iff_ne, ne_eq]
            intro hq'
            exact h hq'.symm
          have hrq : (r.1 == q) = false := by
            simp only [beq_eq_false_iff_ne, ne_eq]
            intro hq'
            exact h (hq'.symm.trans (beq_iff_eq.1 hr))
          simp only [List.find?, hpq, hrq]
          exact ih
        · rw [if_neg hr]
          by_cases hrq : (r.1 == q) = true
          · simp only [List.find?, hrq]
          · have hrq' : (r.1 == q) = false := by simpa using hrq
            simp only [List.find?, hrq']
            exact ih
    rw [this]
  · rw [if_neg hex, readFile, readFile, List.find?_append]
    have : List.find? (fun r => r.1 == q) [(p, c)] = none := by
      rw [List.find?_eq_none]
      intro x hx hpx
      simp only [List.mem_singleton] at hx
      exact h (by rw [hx] at hpx; exact (beq_iff_eq.1 hpx).symm)
    rw [this, Option.or_none]

lemma save_snapshot_dir (d : SnapDir) (name comment ts req_text : String) :
    (save_snapshot d name comment ts req_text).2 =
      writeFile
        (writeFile d (((save_snapshot d name comment ts req_text).1).id ++ ".txt")
          (FileContent.text req_text))
        (((save_snapshot d name comment ts req_text).1).id ++ ".json")
        (FileContent.json (save_snapshot d name comment ts req_text).1) := rfl

lemma txt_ne_json (b : String) : ¬ (b ++ ".txt") = (b ++ ".json") := by
  intro hb
  have hlen := congrArg String.length hb
  rw [String.length_append, String.length_append] at hlen
  have h4 : (".txt" : String).length = 4 := by decide
  have h5 : (".json" : String).length = 5 := by decide
  omega

lemma save_snapshot_reads_back (d : SnapDir) (name comment ts req_text : String) :
    readFile (save_snapshot d name comment ts req_text).2
      (((save_snapshot d name comment ts req_text).1).id ++ ".txt") =
      some (FileContent.text req_text) := by
  rw [save_snapshot_dir,
    readFile_writeFile_other _ _ _ _ (txt_ne_json ((save_snapshot d name comment ts req_text).1).id),
    readFile_writeFile_same]

/-! ## Claim C3: corrupt snapshot (metadata without payload) -/

/-- C3 counterexample: the claim that list_snapshots does not surface a
metadata record whose payload record is missing is false; a store
holding one parseable .json file and no .txt file yields that metadata
in the listing. -/
theorem list_snapshots_surfaces_corrupt_cex :
    ¬ (∀ (d : SnapDir) (id_ : String) (m : SnapMeta),
        readFile d (id_ ++ ".json") = some (FileContent.json m) →
        fileExists d (id_ ++ ".txt") = false →
        get_snapshot d id_ = Except.ok none ∧ m ∉ list_snapshots d) := by
  intro h
  exact (h (SnapDir.mk [("env_20250101_000000" ++ ".json",
        FileContent.json (SnapMeta.mk "env_20250101_000000" "env" "" "20250101_000000" 0))])
      ("env_20250101_000000")
      (SnapMeta.mk "env_20250101_000000" "env" "" "20250101_000000" 0)
      (by decide) (by decide)).2 (by decide)

/-- C3 (amended): when a metadata record exists and parses but its
paired payload record is missing, get_snapshot returns absent without
raising, and list_snapshots does not crash but does surface that
metadata record, with no flag distinguishing it. -/
theorem get_snapshot_corrupt (d : SnapDir) (id_ : String) (m : SnapMeta)
    (hmeta : readFile d (id_ ++ ".json") = some (FileContent.json m))
    (hpayload : fileExists d (id_ ++ ".txt") = false) :
    get_snapshot d id_ = Except.ok none ∧ m ∈ list_snapshots d := by
  constructor
  · rw [get_snapshot]
    simp [hpayload]
  · rw [list_snapshots]
    refine (stableSort_perm _ _).mem_iff.2 ?_
    rw [readFile] at hmeta
    rcases hfind : d.files.find? (fun q => q.1 == (id_ ++ ".json")) with _ | q
    · rw [hfind] at hmeta
      cases hmeta
    · simp only [hfind] at hmeta
      have hq1' := List.find?_some hfind
      have hq1 : q.1 = id_ ++ ".json" := beq_iff_eq.1 hq1'
      have hq2 : q.2 = FileContent.json m := Option.some.inj hmeta
      refine List.mem_filterMap.2 ⟨q, List.mem_of_find?_eq_some hfind, ?_⟩
      rw [hq1, hq2, pyEndsWith_append]
      simp

/-- Witness for the amended C3 theorem on a concrete store. -/
theorem get_snapshot_corrupt_witness :
    readFile (SnapDir.mk [("e" ++ ".json", FileContent.json (SnapMeta.mk "e" "env" "" "t" 0))])
        ("e" ++ ".json") = some (FileContent.json (SnapMeta.mk "e" "env" "" "t" 0)) ∧
    fileExists (SnapDir.mk [("e" ++ ".json", FileContent.json (SnapMeta.mk "e" "env" "" "t" 0))])
        ("e" ++ ".txt") = false ∧
    (get_snapshot (SnapDir.mk [("e" ++ ".json", FileContent.json (SnapMeta.mk "e" "env" "" "t" 0))])
        ("e") = Except.ok none ∧
      SnapMeta.mk "e" "env" "" "t" 0 ∈
        list_snapshots (SnapDir.mk [("e" ++ ".json", FileContent.json (SnapMeta.mk "e" "env" "" "t" 0))])) :=
  ⟨by decide, by decide,
    get_snapshot_corrupt
      (SnapDir.mk [("e" ++ ".json", FileContent.json (SnapMeta.mk "e" "env" "" "t" 0))])
      ("e") (SnapMeta.mk "e" "env" "" "t" 0) (by decide) (by decide)⟩

/-! ## Claim C4: same-name same-second saves -/

/-- C4 counterexample: two saves with the same user name in the same
timestamp second produce the SAME id, not two distinct ids, even with
differing payloads. -/
theorem save_snapshot_same_second_cex :
    ¬ (∀ (d : SnapDir) (name c1 c2 ts t1 t2 : String),
        ((save_snapshot d name c1 ts t1).1).id ≠
          ((save_snapshot (save_snapshot d name c1 ts t1).2 name c2 ts t2).1).id) := by
  intro h
  exact h (SnapDir.mk []) ("env") ("") ("") ("20250101_120000") ("a==1.0") ("b==2.0") rfl

/-- C4 (amended): saving twice with the same name and the same
second-resolution timestamp yields the same snapshot id, and the
payload record stored under that id afterwards is the second save's
freeze text: the first snapshot's records are silently overwritten. -/
theorem save_snapshot_same_second_overwrites (d : SnapDir) (name c1 c2 ts t1 t2 : String) :
    ((save_snapshot d name c1 ts t1).1).id =
      ((save_snapshot (save_snapshot d name c1 ts t1).2 name c2 ts t2).1).id ∧
    readFile ((save_snapshot (save_snapshot d name c1 ts t1).2 name c2 ts t2).2)
      ((((save_snapshot (save_snapshot d name c1 ts t1).2 name c2 ts t2).1).id) ++ ".txt") =
      some (FileContent.text t2) :=
  ⟨rfl, save_snapshot_reads_back (save_snapshot d name c1 ts t1).2 name c2 ts t2⟩

/-! ## Claim C10: deleting a fully missing snapshot -/

/-- C10: when neither the metadata record nor the payload record exists,
delete_snapshot returns true (missing files are skipped, not counted as
failures), and it returns false only when removing one of the two paths
raised. -/
theorem delete_snapshot_missing (rf : String → Bool) (d : SnapDir) (id_ : String) :
    (fileExists d (id_ ++ ".json") = false → fileExists d (id_ ++ ".txt") = false →
      (delete_snapshot rf d id_).1 = true) ∧
    ((delete_snapshot rf d id_).1 = false →
      rf (id_ ++ ".json") = true ∨ rf (id_ ++ ".txt") = true) := by
  constructor
  · intro h1 h2
    have hd2 : tryRemove rf (true, d) (id_ ++ ".json") = (true, d) := by
      rw [tryRemove]
      simp [h1]
    rw [delete_snapshot, hd2, tryRemove]
    simp [h2]
  · intro hfalse
    by_cases hj : rf (id_ ++ ".json") = true
    · exact Or.inl hj
    · right
      have hstep1 : (tryRemove rf (true, d) (id_ ++ ".json")).1 = true := by
        rw [tryRemove]
        by_cases hex : fileExists ((true, d) : Bool × SnapDir).2 (id_ ++ ".json") = true
        · rw [if_pos hex, if_neg hj]
        · rw [if_neg hex]
      by_cases ht : rf (id_ ++ ".txt") = true
      · exact ht
      · exfalso
        rw [delete_snapshot, tryRemove] at hfalse
        by_cases hex : fileExists (tryRemove rf (true, d) (id_ ++ ".json")).2 (id_ ++ ".txt") = true
        · rw [if_pos hex, if_neg ht] at hfalse
          simp [hstep1] at hfalse
        · rw [if_neg hex] at hfalse
          simp [hstep1] at hfalse

/-- Witness for the C10 theorem on a concrete empty store. -/
theorem delete_snapshot_missing_witness :
    fileExists (SnapDir.mk []) ("snap" ++ ".json") = false ∧
    fileExists (SnapDir.mk []) ("snap" ++ ".txt") = false ∧
    (delete_snapshot (fun _ => false) (SnapDir.mk []) ("snap")).1 = true :=
  ⟨by decide, by decide,
    (delete_snapshot_missing (fun _ => false) (SnapDir.mk []) ("snap")).1 (by decide) (by decide)⟩

/-! ## Rendered reconciliation commands (claim C7) -/

/-- Python sorted on a list of names: stable ascending lexicographic
(code point) order. -/
def pySorted (l : List String) : List String :=
  stableSort (fun a b => decide (a ≤ b)) l

/-- Embedding of the command-rendering block shared verbatim by
preview_snapshot_vs_current and preview_snapshot_vs_snapshot: one pip
uninstall covering the sorted uninstall names when there are any,
followed by one exact-pin pip install per install entry in order. -/
def render_commands (installs : List InstallItem) (uninstalls : List UninstallItem) :
    List String :=
  (if uninstalls.isEmpty then []
   else ["python -m pip uninstall -y " ++
     String.intercalate (" ") (pySorted (uninstalls.map (fun x => x.name)))]) ++
  installs.map (fun it => "python -m pip install " ++ it.name ++ "==" ++ it.toVer)

lemma mem_sortInsert {α : Type} (le : α → α → Bool) (a x : α) (l : List α) :
    x ∈ sortInsert le a l ↔ x = a ∨ x ∈ l := by
  have := (sortInsert_perm le a l).mem_iff (a := x)
  simpa using this

lemma sortInsert_pairwise {α : Type} (le : α → α → Bool)
    (htot : ∀ a b, le a b = true ∨ le b a = true)
    (htrans : ∀ a b c, le a b = true → le b c = true → le a c = true)
    (a : α) (l : List α) (hl : List.Pairwise (fun x y => le x y = true) l) :
    List.Pairwise (fun x y => le x y = true) (sortInsert le a l) := by
  induction l with
  | nil => simp [sortInsert]
  | cons b rest ih =>
    rw [sortInsert]
    rcases List.pairwise_cons.1 hl with ⟨hb, hrest⟩
    by_cases hab : le a b = true
    · rw [if_pos hab]
      refine List.pairwise_cons.2 ⟨?_, hl⟩
      intro y hy
      rcases List.mem_cons.1 hy with h1 | h1
      · rw [h1]; exact hab
      · exact htrans a b y hab (hb y h1)
    · rw [if_neg hab]
      refine List.pairwise_cons.2 ⟨?_, ih hrest⟩
      intro y hy
      rcases (mem_sortInsert le a y rest).1 hy with h1 | h1
      · rw [h1]
        rcases htot a b with h2 | h2
        · exact absurd h2 hab
        · exact h2
      · exact hb y h1

lemma stableSort_pairwise {α : Type} (le : α → α → Bool)
    (htot : ∀ a b, le a b = true ∨ le b a = true)
    (htrans : ∀ a b c, le a b = true → le b c = true → le a c = true)
    (l : List α) : List.Pairwise (fun x y => le x y = true) (stableSort le l) := by
  induction l with
  | nil => simp [stableSort]
  | cons a rest ih => exact sortInsert_pairwise le htot htrans a (stableSort le rest) ih

/-- C7: the rendered command list is at most one uninstall command over
a lexicographically sorted permutation of the uninstall names, present
exactly when the uninstall list is non-empty and placed first, followed
by exactly one exact-pin install command per install entry, in the
order of the installs list. -/
theorem render_commands_spec (installs : List InstallItem) (uninstalls : List UninstallItem) :
    ∃ names : List String,
      names.Perm (uninstalls.map (fun x => x.name)) ∧
      List.Pairwise (fun a b : String => a ≤ b) names ∧
      render_commands installs uninstalls =
        (if uninstalls.isEmpty then []
         else ["python -m pip uninstall -y " ++ String.intercalate (" ") names]) ++
        installs.map (fun it => "python -m pip install " ++ it.name ++ "==" ++ it.toVer) := by
  have hperm : (pySorted (uninstalls.map (fun x : UninstallItem => x.name))).Perm
      (uninstalls.map (fun x : UninstallItem => x.name)) := stableSort_perm _ _
  have htot : ∀ a b : String, (decide (a ≤ b)) = true ∨ (decide (b ≤ a)) = true := by
    intro a b
    rcases le_total a b with h1 | h1
    · exact Or.inl (decide_eq_true h1)
    · exact Or.inr (decide_eq_true h1)
  have htrans : ∀ a b c : String,
      (decide (a ≤ b)) = true → (decide (b ≤ c)) = true → (decide (a ≤ c)) = true := by
    intro a b c hab hbc
    exact decide_eq_true (le_trans (of_decide_eq_true hab) (of_decide_eq_true hbc))
  have hpair : List.Pairwise (fun a b : String => a ≤ b)
      (pySorted (uninstalls.map (fun x : UninstallItem => x.name))) := by
    have h := stableSort_pairwise (fun a b : String => decide (a ≤ b)) htot htrans
      (uninstalls.map (fun x : UninstallItem => x.name))
    exact h.imp (fun hab => of_decide_eq_true hab)
  exact ⟨pySorted (uninstalls.map (fun x : UninstallItem => x.name)), hperm, hpair, rfl⟩

/-! ## Job model (claims C5 and C9) -/

/-- Embedding of the Job record: output buffer, completion flag and
exit code.  The uuid id and the kind tag are opaque data; the argument
dict is never read by the job machinery and is omitted. -/
structure Job where
  id : String
  kind : String
  text : String
  done : Bool
  returncode : Option Int
deriving DecidableEq, Repr

/-- Job construction as in the source's constructor: empty buffer, not
done, no exit code yet. -/
def mkJob (id kind : String) : Job :=
  ⟨id, kind, "", false, none⟩

/-- Outcome of the worker's subprocess launch: either the process
started, streamed combined output and terminated with an exit code, or
Popen itself raised (for instance a missing executable). -/
inductive LaunchResult where
  | ok (output : String) (code : Int) : LaunchResult
  | raised : LaunchResult
deriving DecidableEq, Repr

/-- Embedding of _run_and_stream: on a successful launch every output
line is appended, then the exit code is recorded and the job marked
done.  A raising Popen has no handler in the source, so the worker
thread dies and no field of the job is ever updated: there is no
resulting job state, modelled as none. -/
def _run_and_stream (job : Job) (res : LaunchResult) : Option Job :=
  match res with
  | LaunchResult.ok out code =>
    some { job with text := job.text ++ out, returncode := some code, done := true }
  | LaunchResult.raised => none

/-- C5: evaluation at the failing input.  A freshly created job is not
done, has an empty buffer and no exit code, and when the launch raises,
_run_and_stream yields no updated job state at all, so the job table
keeps the unchanged not-done record forever and no error indication is
captured — the job never reaches done, contrary to the claim. -/
theorem job_launch_raised_never_done (id kind : String) :
    (mkJob id kind).done = false ∧ (mkJob id kind).text = "" ∧
      (mkJob id kind).returncode = none ∧
      _run_and_stream (mkJob id kind) LaunchResult.raised = none :=
  ⟨rfl, rfl, rfl, rfl⟩

/-! ## Poll semantics (claim C9) -/

/-- Embedding of the poll endpoint body: under the job lock the delta is
the buffer text from the cursor offset when the cursor is inside the
buffer, else empty, and the returned cursor is the buffer length. -/
def poll_delta (buf : String) (pos : Nat) : String × Nat :=
  (if pos < buf.data.length then ⟨buf.data.drop pos⟩ else "", buf.data.length)

/-- A polling client: fold over the successive states of the append-only
buffer, polling each at the cursor returned by the previous poll,
starting from cursor zero, concatenating the deltas. -/
def pollRun (bufs : List String) : String × Nat :=
  bufs.foldl (fun st b => (st.1 ++ (poll_delta b st.2).1, (poll_delta b st.2).2)) ("", 0)

lemma poll_delta_eq (buf : String) (pos : Nat) :
    poll_delta buf pos = (⟨buf.data.drop pos⟩, buf.data.length) := by
  rw [poll_delta]
  by_cases h : pos < buf.data.length
  · rw [if_pos h]
  · rw [if_neg h, List.drop_eq_nil_of_le (Nat.le_of_not_lt h)]

lemma pollRun_aux (bufs : List String) : ∀ acc : String,
    bufs.Chain' (fun a b => ∃ t, a.data ++ t = b.data) →
    (∀ b, bufs.head? = some b → ∃ t, acc.data ++ t = b.data) →
    bufs.foldl (fun st b => (st.1 ++ (poll_delta b st.2).1, (poll_delta b st.2).2))
        (acc, acc.data.length) =
      (bufs.getLastD acc, (bufs.getLastD acc).data.length) := by
  induction bufs with
  | nil =>
    intro acc _ _
    simp
  | cons b rest ih =>
    intro acc hchain hhead
    obtain ⟨t, ht⟩ := hhead b rfl
    have hstr : acc ++ (⟨b.data.drop acc.data.length⟩ : String) = b := by
      apply String.ext
      rw [String.data_append]
      show acc.data ++ b.data.drop acc.data.length = b.data
      rw [← ht, List.drop_left]
    have hstep : ((acc, acc.data.length).1 ++ (poll_delta b (acc, acc.data.length).2).1,
        (poll_delta b (acc, acc.data.length).2).2) = (b, b.data.length) := by
      rw [poll_delta_eq]
      show (acc ++ (⟨b.data.drop acc.data.length⟩ : String), b.data.length) = (b, b.data.length)
      rw [hstr]
    rw [List.foldl_cons, List.getLastD_cons]
    show List.foldl _ ((acc, acc.data.length).1 ++ (poll_delta b (acc, acc.data.length).2).1,
      (poll_delta b (acc, acc.data.length).2).2) rest = _
    rw [hstep]
    refine ih b (List.chain'_cons'.1 hchain).2 ?_
    intro c hc
    exact (List.chain'_cons'.1 hchain).1 c (Option.mem_def.2 hc)

/-- C9: poll returns exactly the buffer text from the cursor offset to
the end (empty when the cursor is at or past the end) together with a
new cursor equal to the buffer length, so a client that starts at
cursor zero and always passes back the returned cursor over an
append-only buffer receives non-overlapping deltas whose concatenation
is exactly the final buffer, with final cursor at its length. -/
theorem poll_exact_and_lossless (bufs : List String) (buf : String) (pos : Nat)
    (hchain : bufs.Chain' (fun a b => ∃ t, a.data ++ t = b.data)) :
    poll_delta buf pos = (⟨buf.data.drop pos⟩, buf.data.length) ∧
    (buf.data.length ≤ pos → (poll_delta buf pos).1 = "") ∧
    pollRun bufs = (bufs.getLastD "", (bufs.getLastD "").data.length) := by
  refine ⟨poll_delta_eq buf pos, ?_, ?_⟩
  · intro hle
    rw [poll_delta_eq]
    show (⟨buf.data.drop pos⟩ : String) = ""
    rw [List.drop_eq_nil_of_le hle]
  · exact pollRun_aux bufs "" hchain (fun b hb => ⟨b.data, by simp⟩)

/-- Witness for the C9 theorem on a concrete growing buffer. -/
theorem poll_exact_and_lossless_witness :
    List.Chain' (fun a b : String => ∃ t, a.data ++ t = b.data) ["ab", "abcde"] ∧
    (poll_delta "abc" 1 = (⟨"abc".data.drop 1⟩, "abc".data.length) ∧
     ("abc".data.length ≤ 1 → (poll_delta "abc" 1).1 = "") ∧
     pollRun ["ab", "abcde"] =
       (["ab", "abcde"].getLastD "", (["ab", "abcde"].getLastD "").data.length)) := by
  have hchain : List.Chain' (fun a b : String => ∃ t, a.data ++ t = b.data) ["ab", "abcde"] :=
    List.chain'_cons.2 ⟨⟨"cde".data, by decide⟩, List.chain'_singleton _⟩
  exact ⟨hchain, poll_exact_and_lossless ["ab", "abcde"] "abc" 1 hchain⟩

end Birdfingers
